import Mathlib

/-!
Shallow embedding of the top-down synthesis engine in `src/morello/src/search.rs`.

The engine is embedded over an abstract cost type `C` with a linear order:
the Rust `Cost` struct (a lexicographically ordered triple) is external to
the included sources and is used by `search.rs` exclusively through its `Ord`
instance, so every development below is generic in `[LinearOrder C]`.
Action indices (`ActionIdx`, `u16` in Rust) are embedded as `Nat`: the engine
never performs arithmetic on them, only comparisons, and `Nat` order agrees
with `u16` order on the representable range.

Panics (including the `debug_assert!` in `SpecTask::resolve_request`, which
the specification documents as a bug condition) are embedded as
`Except.error`; normal returns as `Except.ok`.
-/

namespace Morello

/-- Strict lexicographic order on `(Cost, ActionIdx)` pairs, mirroring Rust's
derived `Ord` on tuples, which `BTreeSet<(Cost, ActionIdx)>` and the
comparison in `ImplReducer::insert` use. -/
def pairLt {C : Type} [LinearOrder C] (x y : C × Nat) : Prop :=
  x.1 < y.1 ∨ (x.1 = y.1 ∧ x.2 < y.2)

instance {C : Type} [LinearOrder C] (x y : C × Nat) : Decidable (pairLt x y) :=
  inferInstanceAs (Decidable (_ ∨ _))

/-- Non-strict companion of `pairLt`. -/
def pairLe {C : Type} [LinearOrder C] (x y : C × Nat) : Prop :=
  pairLt x y ∨ x = y

instance {C : Type} [LinearOrder C] (x y : C × Nat) : Decidable (pairLe x y) :=
  inferInstanceAs (Decidable (_ ∨ _))

/-- Insertion into the sorted duplicate-free list that models
`BTreeSet<(Cost, ActionIdx)>`: inserting an element already present leaves
the set unchanged (`BTreeSet::insert`). -/
def insertSorted {C : Type} [LinearOrder C] (x : C × Nat) : List (C × Nat) → List (C × Nat)
  | [] => [x]
  | y :: ys =>
    if pairLt x y then x :: y :: ys
    else if x = y then y :: ys
    else y :: insertSorted x ys

/-- Embeds `ImplReducerResults` from `search.rs`: a single optional slot when
`top_k == 1`, otherwise a `BTreeSet` modelled as a sorted list. -/
inductive ImplReducerResults (C : Type) where
  | One : Option (C × Nat) → ImplReducerResults C
  | Many : List (C × Nat) → ImplReducerResults C
deriving DecidableEq

/-- Embeds `ImplReducer` from `search.rs`. -/
structure ImplReducer (C : Type) where
  results : ImplReducerResults C
  topK : Nat
  preferences : List Nat
deriving DecidableEq

/-- Embeds `ImplReducer::new`. -/
def ImplReducer.new {C : Type} (topK : Nat) (preferences : List Nat) : ImplReducer C :=
  { results := if topK = 1 then .One none else .Many []
    topK := topK
    preferences := preferences }

/-- The walk in the equal-cost branch of `ImplReducer::insert`:
`actions.iter().enumerate().filter(|&(i, (cost, _))| i < preferences.len() && *cost == new_cost)
 .find(|&(i, _)| preferences[i] == new_action_idx)`.
`i` is the position in the sorted set; the filter's bound `i < preferences.len()`
is folded into `preferences.get? i = some a`. -/
def findPrefMatch {C : Type} [LinearOrder C] (preferences : List Nat) (c : C) (a : Nat) :
    List (C × Nat) → Nat → Option (C × Nat)
  | [], _ => none
  | p :: rest, i =>
    if p.1 = c ∧ preferences.get? i = some a then some p
    else findPrefMatch preferences c a rest (i + 1)

/-- Embeds `ImplReducer::insert(new_action_idx, new_cost)`.  The `debug_assert!`
invariant checks in the `Many` branch are elided (they do not affect the
computed state); the behavioural content of the function is kept exactly:
capacity insert, preference-guided replacement among equal costs, and
insert-then-`pop_last` otherwise. -/
def ImplReducer.insert {C : Type} [LinearOrder C] (r : ImplReducer C)
    (newActionIdx : Nat) (newCost : C) : ImplReducer C :=
  let newAction : C × Nat := (newCost, newActionIdx)
  match r.results with
  | .One none => { r with results := .One (some newAction) }
  | .One (some action) =>
    if pairLt newAction action then { r with results := .One (some newAction) }
    else r
  | .Many actions =>
    if actions.length < r.topK then
      { r with results := .Many (insertSorted newAction actions) }
    else if ∃ p ∈ actions, p.1 = newCost then
      match findPrefMatch r.preferences newCost newActionIdx actions 0 with
      | some found =>
        { r with results := .Many (insertSorted newAction (actions.erase found)) }
      | none => r
    else
      { r with results := .Many (insertSorted newAction actions).dropLast }

/-- Embeds `ImplReducer::finalize`. -/
def ImplReducer.finalize {C : Type} (r : ImplReducer C) : List (Nat × C) :=
  match r.results with
  | .One none => []
  | .One (some (cost, actionIdx)) => [(actionIdx, cost)]
  | .Many actions => actions.map fun p => (p.2, p.1)

/-- Fold a sequence of `insert(action_idx, cost)` calls over a reducer. -/
def ImplReducer.insertAll {C : Type} [LinearOrder C] (r : ImplReducer C)
    (xs : List (Nat × C)) : ImplReducer C :=
  xs.foldl (fun acc p => acc.insert p.1 p.2) r

/-- The `(Cost, ActionIdx)` pairs currently held by a reducer. -/
def ImplReducer.heldPairs {C : Type} (r : ImplReducer C) : List (C × Nat) :=
  match r.results with
  | .One none => []
  | .One (some p) => [p]
  | .Many actions => actions

/-- Composite well-formedness invariant of a reducer reachable from
`ImplReducer::new` through inserts of pairwise distinct action indices. -/
def ReducerInv {C : Type} [LinearOrder C] (r : ImplReducer C) : Prop :=
  r.heldPairs.Pairwise pairLt ∧ (r.heldPairs.map Prod.snd).Nodup ∧
  r.heldPairs.length ≤ r.topK ∧ (∀ o, r.results = .One o → r.topK = 1)

/-- An Impl program tree as `SpecTask` consumes it.  `SpecT` stands in for
`Spec<Tgt>` and the payload `K` for everything a non-`SpecApp` node carries
besides its children (loop/move/block/pipeline/kernel data); the cost fold
and the sub-Spec walk only distinguish `SpecApp` leaves from other nodes. -/
inductive ImplNode (SpecT K : Type) where
  | specApp : SpecT → ImplNode SpecT K
  | node : K → List (ImplNode SpecT K) → ImplNode SpecT K

/-- Modelled from the spec: `Impl::visit_subspecs` (its source is not part of
the included files) enumerates the sub-Specs of a partial Impl — the Specs at
its `SpecApp` leaves — in a stable left-to-right order, the same order in
which `compute_impl_cost` consumes child costs. -/
def visitSubspecsAux {SpecT K : Type} : List (ImplNode SpecT K) → List SpecT
  | [] => []
  | .specApp s :: rest => s :: visitSubspecsAux rest
  | .node _ children :: rest => visitSubspecsAux children ++ visitSubspecsAux rest

/-- Modelled from the spec: sub-Specs of a single Impl tree (see
`visitSubspecsAux`). -/
def visitSubspecs {SpecT K : Type} (t : ImplNode SpecT K) : List SpecT :=
  visitSubspecsAux [t]

/-- Cost folding over a forest, threading the cost iterator: each `SpecApp`
leaf consumes the next cost (`costs.next().unwrap()`; exhaustion is a panic,
hence `none`), and every other node folds its children's costs through the
external `Cost::from_child_costs` (abstracted as `fcc` on the node payload). -/
def computeImplCostAux {SpecT K C : Type} (fcc : K → List C → C) :
    List (ImplNode SpecT K) → List C → Option (List C × List C)
  | [], costs => some ([], costs)
  | .specApp _ :: rest, costs =>
    match costs with
    | [] => none
    | c :: cs =>
      (computeImplCostAux fcc rest cs).map fun p => (c :: p.1, p.2)
  | .node k children :: rest, costs =>
    match computeImplCostAux fcc children costs with
    | none => none
    | some (cs, remaining) =>
      (computeImplCostAux fcc rest remaining).map fun p => (fcc k cs :: p.1, p.2)

/-- Embeds `compute_impl_cost` from `search.rs`, returning the folded cost together
with the unconsumed suffix of the cost iterator. -/
def computeImplCost {SpecT K C : Type} (fcc : K → List C → C)
    (t : ImplNode SpecT K) (costs : List C) : Option (C × List C) :=
  match t with
  | .specApp _ =>
    match costs with
    | [] => none
    | c :: cs => some (c, cs)
  | .node k children =>
    (computeImplCostAux fcc children costs).map fun p => (fcc k p.1, p.2)

/-- Embeds `WorkingPartialImpl` from `search.rs`. -/
inductive WorkingPartialImpl (SpecT K C : Type) where
  | Constructing : ImplNode SpecT K → List SpecT → List (Option C) → Nat →
      WorkingPartialImpl SpecT K C
  | Unsat : WorkingPartialImpl SpecT K C
  | Sat : WorkingPartialImpl SpecT K C

/-- Embeds `SpecTask` from `search.rs`.  `Running` fields in order: reducer,
partial Impls, incomplete count, request batches returned, max children.
`Complete` holds the `ActionCostVec` and the from-database flag. -/
inductive SpecTask (SpecT K C : Type) where
  | Running : ImplReducer C → List (WorkingPartialImpl SpecT K C) → Nat → Nat → Nat →
      SpecTask SpecT K C
  | Complete : List (Nat × C) → Bool → SpecTask SpecT K C

/-- Embeds `ApplyError` from `scheduling.rs` as `SpecTask::start` consumes it. -/
inductive ApplyError where
  | ActionNotApplicable
  | OutOfMemory
  | SpecNotCanonical
deriving DecidableEq

/-- Loop body of `SpecTask::start` for one `(action_idx, apply-result)` pair,
threading `(reducer, max_children, partial_impls, partial_impls_incomplete)`.
`SpecNotCanonical` panics. -/
def startStep {SpecT K C : Type} [LinearOrder C] (fromImpl : ImplNode SpecT K → C)
    (acc : ImplReducer C × Nat × List (WorkingPartialImpl SpecT K C) × Nat)
    (entry : Nat × Except ApplyError (ImplNode SpecT K)) :
    Except String (ImplReducer C × Nat × List (WorkingPartialImpl SpecT K C) × Nat) :=
  match entry.2 with
  | .error .SpecNotCanonical => .error "Spec not canonical"
  | .error .ActionNotApplicable => .ok acc
  | .error .OutOfMemory => .ok acc
  | .ok pimpl =>
    let (reducer, maxChildren, partials, incomplete) := acc
    let subspecs := visitSubspecs pimpl
    let maxChildren := max maxChildren subspecs.length
    if subspecs.isEmpty then
      .ok (reducer.insert entry.1 (fromImpl pimpl), maxChildren, partials, incomplete)
    else
      .ok (reducer, maxChildren,
        partials ++ [.Constructing pimpl subspecs (List.replicate subspecs.length none) entry.1],
        incomplete + 1)

/-- Embeds `SpecTask::start`.  The external pieces are supplied as data: the results
of `action.apply(&goal)` for each action index in enumeration order
(`applyResults`) and the leaf cost function `Cost::from_impl` (`fromImpl`).
Iteration is rotated by `initial_skip = thread_idx * n / thread_count`, the
Rust `(initial_skip..len).chain(0..initial_skip)` index walk expressed as a
rotation of the enumerated list. -/
def SpecTask.start {SpecT K C : Type} [LinearOrder C]
    (applyResults : List (Except ApplyError (ImplNode SpecT K)))
    (fromImpl : ImplNode SpecT K → C) (topK : Nat) (preferences : List Nat)
    (threadIdx threadCount : Nat) : Except String (SpecTask SpecT K C) :=
  let n := applyResults.length
  let initialSkip := threadIdx * n / threadCount
  let enumerated := applyResults.enum
  let rotated := enumerated.drop initialSkip ++ enumerated.take initialSkip
  match rotated.foldl
      (fun (acc : Except String (ImplReducer C × Nat × List (WorkingPartialImpl SpecT K C) × Nat))
          entry => acc.bind fun a => startStep fromImpl a entry)
      (.ok (ImplReducer.new topK preferences, 0, [], 0)) with
  | .error e => .error e
  | .ok (reducer, maxChildren, partials, incomplete) =>
    if incomplete = 0 then .ok (.Complete reducer.finalize false)
    else .ok (.Running reducer partials incomplete 0 maxChildren)

/-- Embeds `SpecTask::next_request_batch`.  Returns the optional batch (collected to
a list, as call sites do) together with the updated task state. -/
def SpecTask.nextRequestBatch {SpecT K C : Type} (t : SpecTask SpecT K C) :
    Option (List (SpecT × (Nat × Nat))) × SpecTask SpecT K C :=
  match t with
  | .Complete r b => (none, .Complete r b)
  | .Running reducer partials incomplete batchesReturned maxChildren =>
    if batchesReturned = maxChildren then
      (none, .Running reducer partials incomplete batchesReturned maxChildren)
    else
      let batch := partials.enum.filterMap fun ip =>
        match ip.2 with
        | .Constructing _ subspecs _ _ =>
          (subspecs.get? batchesReturned).map fun s => (s, (ip.1, batchesReturned))
        | _ => none
      (some batch, .Running reducer partials incomplete (batchesReturned + 1) maxChildren)

/-- Embeds `SpecTask::resolve_request(id, cost)`.  Panics — "Task is not running",
out-of-bounds indexing, the already-resolved `debug_assert!`, exhaustion of
the cost iterator, and "Resolved a request for an already-completed Spec" —
are `Except.error`. -/
def SpecTask.resolveRequest {SpecT K C : Type} [LinearOrder C] (fcc : K → List C → C)
    (t : SpecTask SpecT K C) (rid : Nat × Nat) (cost : Option C) :
    Except String (SpecTask SpecT K C) :=
  match t with
  | .Complete _ _ => .error "Task is not running"
  | .Running reducer partials incomplete batchesReturned maxChildren =>
    if incomplete = 0 then
      .ok (.Running reducer partials incomplete batchesReturned maxChildren)
    else
      match partials.get? rid.1 with
      | none => .error "working Impl index out of bounds"
      | some (.Constructing pimpl subspecs subspecCosts producingActionIdx) =>
        match cost with
        | some c =>
          match subspecCosts.get? rid.2 with
          | none => .error "child index out of bounds"
          | some (some _) => .error "Requested Spec was already resolved"
          | some none =>
            let newCosts := subspecCosts.set rid.2 (some c)
            if newCosts.all Option.isSome then
              match computeImplCost fcc pimpl (newCosts.filterMap id) with
              | none => .error "cost iterator exhausted"
              | some (v, _) =>
                let reducer := reducer.insert producingActionIdx v
                if incomplete - 1 = 0 then .ok (.Complete reducer.finalize false)
                else .ok (.Running reducer (partials.set rid.1 .Sat) (incomplete - 1)
                  batchesReturned maxChildren)
            else
              .ok (.Running reducer
                (partials.set rid.1 (.Constructing pimpl subspecs newCosts producingActionIdx))
                incomplete batchesReturned maxChildren)
        | none =>
          if incomplete - 1 = 0 then .ok (.Complete reducer.finalize false)
          else .ok (.Running reducer (partials.set rid.1 .Unsat) (incomplete - 1)
            batchesReturned maxChildren)
      | some .Unsat => .ok (.Running reducer partials incomplete batchesReturned maxChildren)
      | some .Sat => .error "Resolved a request for an already-completed Spec"

/-- The cost a resolved sub-Spec hands to its waiters
(`BlockSearch::inner_resolve_request`, line 446):
`results.0.into_iter().next().map(|v| v.1)` — `none` for an empty
`ActionCostVec`, i.e. an unsatisfiable sub-Spec. -/
def firstCost {C : Type} (results : List (Nat × C)) : Option C :=
  results.head?.map fun p => p.2

/-- The guard clauses at the top of `top_down_many` (lines 113–116):
`assert!(db.max_k().map_or(true, |k| k >= top_k))` followed by
`unimplemented!` for `top_k > 1`.  Both panics are `Except.error`. -/
def topDownManyChecks (maxK : Option Nat) (topK : Nat) : Except String Unit :=
  if Option.all (fun k => decide (topK ≤ k)) maxK then
    if 1 < topK then .error "Search for top_k > 1 not yet implemented."
    else .ok ()
  else .error "assertion failed: top_k exceeds database max_k"

section PairOrder

variable {C : Type} [LinearOrder C]

theorem pairLt_irrefl (x : C × Nat) : ¬ pairLt x x := by
  simp [pairLt]

theorem pairLt_trans {x y z : C × Nat} (hxy : pairLt x y) (hyz : pairLt y z) :
    pairLt x z := by
  rcases hxy with h1 | ⟨e1, l1⟩ <;> rcases hyz with h2 | ⟨e2, l2⟩
  · exact Or.inl (lt_trans h1 h2)
  · exact Or.inl (e2 ▸ h1)
  · exact Or.inl (e1 ▸ h2)
  · exact Or.inr ⟨e1.trans e2, lt_trans l1 l2⟩

theorem pairLt_trichotomy (x y : C × Nat) : pairLt x y ∨ x = y ∨ pairLt y x := by
  rcases lt_trichotomy x.1 y.1 with h | h | h
  · exact Or.inl (Or.inl h)
  · rcases lt_trichotomy x.2 y.2 with h2 | h2 | h2
    · exact Or.inl (Or.inr ⟨h, h2⟩)
    · exact Or.inr (Or.inl (Prod.ext h h2))
    · exact Or.inr (Or.inr (Or.inr ⟨h.symm, h2⟩))
  · exact Or.inr (Or.inr (Or.inl h))

theorem pairLt_asymm {x y : C × Nat} (h : pairLt x y) : ¬ pairLt y x := by
  intro h'
  exact pairLt_irrefl x (pairLt_trans h h')

theorem ne_of_pairLt {x y : C × Nat} (h : pairLt x y) : x ≠ y := by
  rintro rfl
  exact pairLt_irrefl x h

theorem mem_insertSorted {x z : C × Nat} :
    ∀ {l : List (C × Nat)}, z ∈ insertSorted x l ↔ z = x ∨ z ∈ l := by
  intro l
  induction l with
  | nil => simp [insertSorted]
  | cons y ys ih =>
    by_cases h1 : pairLt x y
    · simp only [insertSorted, if_pos h1, List.mem_cons]
    · by_cases h2 : x = y
      · simp only [insertSorted, if_neg h1, if_pos h2, List.mem_cons]
        subst h2
        tauto
      · simp only [insertSorted, if_neg h1, if_neg h2, List.mem_cons, ih]
        tauto

theorem length_insertSorted_le (x : C × Nat) :
    ∀ (l : List (C × Nat)), (insertSorted x l).length ≤ l.length + 1 := by
  intro l
  induction l with
  | nil => simp [insertSorted]
  | cons y ys ih =>
    by_cases h1 : pairLt x y
    · simp [insertSorted, if_pos h1]
    · by_cases h2 : x = y
      · simp [insertSorted, if_neg h1, if_pos h2]
      · simp only [insertSorted, if_neg h1, if_neg h2, List.length_cons]
        exact Nat.succ_le_succ (ih)

theorem length_insertSorted_pos (x : C × Nat) (l : List (C × Nat)) :
    1 ≤ (insertSorted x l).length := by
  induction l with
  | nil => simp [insertSorted]
  | cons y ys ih =>
    by_cases h1 : pairLt x y
    · simp [insertSorted, if_pos h1]
    · by_cases h2 : x = y
      · simp [insertSorted, if_neg h1, if_pos h2]
      · simp [insertSorted, if_neg h1, if_neg h2]

theorem pairwise_insertSorted {x : C × Nat} :
    ∀ {l : List (C × Nat)}, l.Pairwise pairLt → (insertSorted x l).Pairwise pairLt := by
  intro l
  induction l with
  | nil =>
    intro _
    simp [insertSorted]
  | cons y ys ih =>
    intro hp
    rcases List.pairwise_cons.1 hp with ⟨hy, hys⟩
    by_cases h1 : pairLt x y
    · simp only [insertSorted, if_pos h1]
      refine List.pairwise_cons.2 ⟨?_, hp⟩
      intro z hz
      rcases List.mem_cons.1 hz with rfl | hz
      · exact h1
      · exact pairLt_trans h1 (hy _ hz)
    · by_cases h2 : x = y
      · simpa only [insertSorted, if_neg h1, if_pos h2] using hp
      · simp only [insertSorted, if_neg h1, if_neg h2]
        refine List.pairwise_cons.2 ⟨?_, ih hys⟩
        intro z hz
        rcases mem_insertSorted.1 hz with rfl | hz
        · rcases pairLt_trichotomy z y with h | h | h
          · exact absurd h h1
          · exact absurd h h2
          · exact h
        · exact hy _ hz

theorem nodupSnd_insertSorted {x : C × Nat} :
    ∀ {l : List (C × Nat)}, (l.map Prod.snd).Nodup → x.2 ∉ l.map Prod.snd →
      ((insertSorted x l).map Prod.snd).Nodup := by
  intro l
  induction l with
  | nil =>
    intro _ _
    simp [insertSorted]
  | cons y ys ih =>
    intro hnd hx
    have hy : y.2 ∉ ys.map Prod.snd := (List.nodup_cons.1 (by simpa using hnd)).1
    have hys : (ys.map Prod.snd).Nodup := (List.nodup_cons.1 (by simpa using hnd)).2
    have hxy : x.2 ≠ y.2 := fun h => hx (by simp [h])
    have hxys : x.2 ∉ ys.map Prod.snd := fun h => hx (by simp [h])
    by_cases h1 : pairLt x y
    · simp only [insertSorted, if_pos h1, List.map_cons, List.nodup_cons]
      refine ⟨?_, by simpa using hnd⟩
      simp only [List.mem_cons]
      rintro (h | h)
      · exact hxy h
      · exact hxys h
    · by_cases h2 : x = y
      · simpa only [insertSorted, if_neg h1, if_pos h2] using hnd
      · simp only [insertSorted, if_neg h1, if_neg h2, List.map_cons, List.nodup_cons]
        refine ⟨?_, ih hys hxys⟩
        intro hmem
        rcases List.mem_map.1 hmem with ⟨z, hz, hz2⟩
        rcases mem_insertSorted.1 hz with rfl | hz
        · exact hxy hz2
        · exact hy (hz2 ▸ List.mem_map_of_mem Prod.snd hz)

end PairOrder

section ReducerLemmas

variable {C : Type} [LinearOrder C]

theorem heldPairs_new (topK : Nat) (preferences : List Nat) :
    (ImplReducer.new (C := C) topK preferences).heldPairs = [] := by
  by_cases h : topK = 1 <;> simp [ImplReducer.new, ImplReducer.heldPairs, h]

theorem finalize_eq_map (r : ImplReducer C) :
    r.finalize = r.heldPairs.map fun p => (p.2, p.1) := by
  rcases r with ⟨results, topK, preferences⟩
  rcases results with o | l
  · rcases o with _ | ⟨c, a⟩ <;> rfl
  · rfl

theorem insert_topK (r : ImplReducer C) (a : Nat) (c : C) :
    (r.insert a c).topK = r.topK := by
  rcases r with ⟨results, topK, preferences⟩
  rcases results with o | l
  · rcases o with _ | p <;> simp [ImplReducer.insert] <;> split <;> rfl
  · simp only [ImplReducer.insert]
    split
    · rfl
    · split
      · split <;> rfl
      · rfl

theorem insert_preferences (r : ImplReducer C) (a : Nat) (c : C) :
    (r.insert a c).preferences = r.preferences := by
  rcases r with ⟨results, topK, preferences⟩
  rcases results with o | l
  · rcases o with _ | p <;> simp [ImplReducer.insert] <;> split <;> rfl
  · simp only [ImplReducer.insert]
    split
    · rfl
    · split
      · split <;> rfl
      · rfl

theorem insert_one_of_one {r : ImplReducer C} {a : Nat} {c : C} {o : Option (C × Nat)}
    (h : r.results = .One o) : ∃ o', (r.insert a c).results = .One o' := by
  rcases r with ⟨results, topK, preferences⟩
  simp only at h
  subst h
  rcases o with _ | p <;> simp only [ImplReducer.insert]
  · exact ⟨_, rfl⟩
  · split <;> exact ⟨_, rfl⟩

theorem insert_many_of_many {r : ImplReducer C} {a : Nat} {c : C} {l : List (C × Nat)}
    (h : r.results = .Many l) : ∃ l', (r.insert a c).results = .Many l' := by
  rcases r with ⟨results, topK, preferences⟩
  simp only at h
  subst h
  simp only [ImplReducer.insert]
  split
  · exact ⟨_, rfl⟩
  · split
    · split <;> exact ⟨_, rfl⟩
    · exact ⟨_, rfl⟩

theorem findPrefMatch_mem {preferences : List Nat} {c : C} {a : Nat} :
    ∀ {l : List (C × Nat)} {i : Nat} {p : C × Nat},
      findPrefMatch preferences c a l i = some p → p ∈ l := by
  intro l
  induction l with
  | nil => intro i p h; simp [findPrefMatch] at h
  | cons q rest ih =>
    intro i p h
    simp only [findPrefMatch] at h
    split at h
    · cases h
      exact List.mem_cons_self q rest
    · exact List.mem_cons_of_mem q (ih h)

/-- The possible shapes of the held set after one `insert`. -/
theorem heldPairs_insert_shape (r : ImplReducer C) (a : Nat) (c : C) :
    (r.insert a c).heldPairs = [(c, a)]
    ∨ (r.insert a c).heldPairs = r.heldPairs
    ∨ (r.insert a c).heldPairs = insertSorted (c, a) r.heldPairs
    ∨ (∃ found ∈ r.heldPairs,
        (r.insert a c).heldPairs = insertSorted (c, a) (r.heldPairs.erase found))
    ∨ (r.insert a c).heldPairs = (insertSorted (c, a) r.heldPairs).dropLast := by
  rcases r with ⟨results, topK, preferences⟩
  rcases results with o | l
  · rcases o with _ | p
    · exact Or.inl rfl
    · simp only [ImplReducer.insert]
      split
      · exact Or.inl rfl
      · exact Or.inr (Or.inl rfl)
  · simp only [ImplReducer.insert]
    split
    · exact Or.inr (Or.inr (Or.inl rfl))
    · split
      · rcases hmatch : findPrefMatch preferences c a l 0 with _ | found
        · exact Or.inr (Or.inl (by simp [hmatch]))
        · refine Or.inr (Or.inr (Or.inr (Or.inl ⟨found, findPrefMatch_mem hmatch, ?_⟩)))
          simp [hmatch, ImplReducer.heldPairs]
      · exact Or.inr (Or.inr (Or.inr (Or.inr rfl)))

theorem pairwise_heldPairs_insert {r : ImplReducer C} (a : Nat) (c : C)
    (h : r.heldPairs.Pairwise pairLt) : ((r.insert a c).heldPairs).Pairwise pairLt := by
  rcases heldPairs_insert_shape r a c with h1 | h1 | h1 | ⟨found, _, h1⟩ | h1 <;> rw [h1]
  · exact List.pairwise_singleton pairLt (c, a)
  · exact h
  · exact pairwise_insertSorted h
  · exact pairwise_insertSorted (h.sublist (List.erase_sublist found _))
  · exact (pairwise_insertSorted h).sublist (List.dropLast_sublist _)

theorem mem_heldPairs_insert {r : ImplReducer C} {a : Nat} {c : C} {z : C × Nat}
    (hz : z ∈ (r.insert a c).heldPairs) : z = (c, a) ∨ z ∈ r.heldPairs := by
  rcases heldPairs_insert_shape r a c with h1 | h1 | h1 | ⟨found, _, h1⟩ | h1 <;> rw [h1] at hz
  · exact Or.inl (by simpa using hz)
  · exact Or.inr hz
  · exact (mem_insertSorted.1 hz).imp id id
  · rcases mem_insertSorted.1 hz with rfl | hz
    · exact Or.inl rfl
    · exact Or.inr (List.mem_of_mem_erase hz)
  · rcases mem_insertSorted.1 ((List.dropLast_sublist _).subset hz) with rfl | hz
    · exact Or.inl rfl
    · exact Or.inr hz

theorem nodupSnd_heldPairs_insert {r : ImplReducer C} {a : Nat} {c : C}
    (h : (r.heldPairs.map Prod.snd).Nodup) (ha : a ∉ r.heldPairs.map Prod.snd) :
    (((r.insert a c).heldPairs).map Prod.snd).Nodup := by
  rcases heldPairs_insert_shape r a c with h1 | h1 | h1 | ⟨found, _, h1⟩ | h1 <;> rw [h1]
  · simp
  · exact h
  · exact nodupSnd_insertSorted h ha
  · have hsub : List.Sublist ((r.heldPairs.erase found).map Prod.snd)
        (r.heldPairs.map Prod.snd) :=
      (List.erase_sublist found _).map Prod.snd
    exact nodupSnd_insertSorted (h.sublist hsub) (fun hmem => ha (hsub.subset hmem))
  · exact (nodupSnd_insertSorted h ha).sublist ((List.dropLast_sublist _).map Prod.snd)

theorem length_heldPairs_insert_le {r : ImplReducer C} (a : Nat) (c : C)
    (h : r.heldPairs.length ≤ r.topK) (hone : ∀ o, r.results = .One o → r.topK = 1) :
    ((r.insert a c).heldPairs).length ≤ r.topK := by
  rcases r with ⟨results, topK, preferences⟩
  rcases results with o | l
  · have h1 : topK = 1 := hone o rfl
    subst h1
    rcases o with _ | p
    · simp [ImplReducer.insert, ImplReducer.heldPairs]
    · simp only [ImplReducer.insert]
      split <;> simp [ImplReducer.heldPairs]
  · simp only [ImplReducer.heldPairs] at h
    simp only [ImplReducer.insert]
    split
    · rename_i hlt
      simpa [ImplReducer.heldPairs] using
        le_trans (length_insertSorted_le (c, a) l) (Nat.succ_le_of_lt hlt)
    · split
      · rcases hmatch : findPrefMatch preferences c a l 0 with _ | found
        · simpa [ImplReducer.heldPairs, hmatch] using h
        · simp only [hmatch, ImplReducer.heldPairs]
          have hfm : found ∈ l := findPrefMatch_mem hmatch
          have h2 : (l.erase found).length = l.length - 1 :=
            List.length_erase_of_mem hfm
          have h3 := length_insertSorted_le (c, a) (l.erase found)
          rw [h2] at h3
          have h4 : l.length - 1 + 1 = l.length :=
            Nat.succ_pred_eq_of_pos (List.length_pos_of_mem hfm)
          exact le_trans (h4 ▸ h3) h
      · simp only [ImplReducer.heldPairs, List.length_dropLast]
        have h3 := length_insertSorted_le (c, a) l
        exact le_trans (Nat.sub_le_of_le_add h3) h

theorem reducerInv_new (topK : Nat) (preferences : List Nat) :
    ReducerInv (ImplReducer.new (C := C) topK preferences) := by
  refine ⟨?_, ?_, ?_, ?_⟩ <;>
    by_cases h : topK = 1 <;>
      simp [ImplReducer.new, ImplReducer.heldPairs, h]

theorem reducerInv_insert {r : ImplReducer C} {a : Nat} {c : C}
    (h : ReducerInv r) (ha : a ∉ r.heldPairs.map Prod.snd) :
    ReducerInv (r.insert a c) := by
  obtain ⟨hp, hn, hl, ho⟩ := h
  refine ⟨pairwise_heldPairs_insert a c hp, nodupSnd_heldPairs_insert hn ha, ?_, ?_⟩
  · rw [insert_topK]
    exact length_heldPairs_insert_le a c hl ho
  · intro o' h'
    rcases hres : r.results with o | l
    · rw [insert_topK]
      exact ho o hres
    · rcases insert_many_of_many (a := a) (c := c) hres with ⟨l', hl'⟩
      rw [hl'] at h'
      cases h'

theorem reducerInv_insertAll :
    ∀ (xs : List (Nat × C)) (r : ImplReducer C), ReducerInv r →
      (xs.map Prod.fst).Nodup → (∀ p ∈ xs, p.1 ∉ r.heldPairs.map Prod.snd) →
      ReducerInv (r.insertAll xs) := by
  intro xs
  induction xs with
  | nil => intro r h _ _; exact h
  | cons x rest ih =>
    intro r h hnd hdisj
    have hx : x.1 ∉ r.heldPairs.map Prod.snd := hdisj x (List.mem_cons_self x rest)
    have h' : ReducerInv (r.insert x.1 x.2) := reducerInv_insert h hx
    have hnd' : (rest.map Prod.fst).Nodup := (List.nodup_cons.1 (by simpa using hnd)).2
    have hx1 : x.1 ∉ rest.map Prod.fst := (List.nodup_cons.1 (by simpa using hnd)).1
    refine ih (r.insert x.1 x.2) h' hnd' ?_
    intro p hp hmem
    rcases List.mem_map.1 hmem with ⟨z, hz, hz2⟩
    rcases mem_heldPairs_insert hz with rfl | hz
    · exact hx1 (by simpa [← hz2] using List.mem_map_of_mem Prod.fst hp)
    · exact hdisj p (List.mem_cons_of_mem x hp) (hz2 ▸ List.mem_map_of_mem Prod.snd hz)

theorem pairwise_heldPairs_insertAll :
    ∀ (xs : List (Nat × C)) (r : ImplReducer C), r.heldPairs.Pairwise pairLt →
      ((r.insertAll xs).heldPairs).Pairwise pairLt := by
  intro xs
  induction xs with
  | nil => intro r h; exact h
  | cons x rest ih =>
    intro r h
    exact ih (r.insert x.1 x.2) (pairwise_heldPairs_insert x.1 x.2 h)

theorem findPrefMatch_none {preferences : List Nat} {c : C} {a : Nat} :
    ∀ {l : List (C × Nat)} {n : Nat},
      (∀ i p, l.get? i = some p → p.1 = c → preferences.get? (n + i) ≠ some a) →
      findPrefMatch preferences c a l n = none := by
  intro l
  induction l with
  | nil => intro n _; rfl
  | cons q rest ih =>
    intro n h
    simp only [findPrefMatch]
    rw [if_neg, ih]
    · intro i p hget hc
      have h2 := h (i + 1) p (by simpa using hget) hc
      have he : n + 1 + i = n + (i + 1) := by omega
      rw [he]
      exact h2
    · rintro ⟨hc, hp⟩
      exact h 0 q rfl hc (by simpa using hp)

theorem findPrefMatch_some {preferences : List Nat} {c : C} {a : Nat} :
    ∀ {l : List (C × Nat)} {n i : Nat} {p : C × Nat},
      l.get? i = some p → p.1 = c → preferences.get? (n + i) = some a →
      (∀ j q, j < i → l.get? j = some q → q.1 = c → preferences.get? (n + j) ≠ some a) →
      findPrefMatch preferences c a l n = some p := by
  intro l
  induction l with
  | nil => intro n i p hget; simp at hget
  | cons q rest ih =>
    intro n i p hget hc hpref hmin
    cases i with
    | zero =>
      cases hget
      simp only [findPrefMatch]
      rw [if_pos ⟨hc, by simpa using hpref⟩]
    | succ i =>
      simp only [findPrefMatch]
      rw [if_neg, ih (by simpa using hget) hc ?_ ?_]
      · have : n + 1 + i = n + (i + 1) := by omega
        rw [this]
        exact hpref
      · intro j r hj hr hrc
        have := hmin (j + 1) r (Nat.succ_lt_succ hj) (by simpa using hr) hrc
        have he : n + 1 + j = n + (j + 1) := by omega
        rw [he]
        exact this
      · rintro ⟨hqc, hqp⟩
        exact hmin 0 q (Nat.succ_pos i) rfl hqc (by simpa using hqp) 

theorem pairLe_refl (x : C × Nat) : pairLe x x := Or.inr rfl

theorem pairLe_trans {x y z : C × Nat} (hxy : pairLe x y) (hyz : pairLe y z) :
    pairLe x z := by
  rcases hxy with h1 | rfl
  · rcases hyz with h2 | rfl
    · exact Or.inl (pairLt_trans h1 h2)
    · exact Or.inl h1
  · exact hyz

theorem pairLe_of_not_pairLt {x y : C × Nat} (h : ¬ pairLt x y) : pairLe y x := by
  rcases pairLt_trichotomy x y with h1 | h1 | h1
  · exact absurd h1 h
  · exact Or.inr h1.symm
  · exact Or.inl h1

theorem insertAll_cons (r : ImplReducer C) (x : Nat × C) (xs : List (Nat × C)) :
    r.insertAll (x :: xs) = (r.insert x.1 x.2).insertAll xs := rfl

theorem insert_one_none (k : Nat) (preferences : List Nat) (a : Nat) (c : C) :
    (ImplReducer.mk (.One none) k preferences).insert a c
      = ImplReducer.mk (.One (some (c, a))) k preferences := rfl

theorem insert_one_some (k : Nat) (preferences : List Nat) (a : Nat) (c : C)
    (p : C × Nat) :
    (ImplReducer.mk (.One (some p)) k preferences).insert a c
      = ImplReducer.mk (.One (some (if pairLt (c, a) p then (c, a) else p)))
          k preferences := by
  simp only [ImplReducer.insert]
  split_ifs with h <;> rfl

theorem insertAll_one_char :
    ∀ (xs : List (Nat × C)) (p : C × Nat) (k : Nat) (preferences : List Nat),
      ∃ q, ((ImplReducer.mk (.One (some p)) k preferences).insertAll xs).results
          = .One (some q)
        ∧ (q = p ∨ (q.2, q.1) ∈ xs) ∧ pairLe q p ∧ ∀ r ∈ xs, pairLe q (r.2, r.1) := by
  intro xs
  induction xs with
  | nil =>
    intro p k preferences
    exact ⟨p, rfl, Or.inl rfl, pairLe_refl p, by simp⟩
  | cons x rest ih =>
    intro p k preferences
    rw [insertAll_cons, insert_one_some]
    by_cases h : pairLt (x.2, x.1) p
    · rw [if_pos h]
      obtain ⟨q, hq, hmem, hle, hall⟩ := ih (x.2, x.1) k preferences
      refine ⟨q, hq, ?_, ?_, ?_⟩
      · rcases hmem with rfl | hmem
        · exact Or.inr (List.mem_cons_self x rest)
        · exact Or.inr (List.mem_cons_of_mem x hmem)
      · exact pairLe_trans hle (Or.inl h)
      · intro r hr
        rcases List.mem_cons.1 hr with rfl | hr
        · exact hle
        · exact hall r hr
    · rw [if_neg h]
      obtain ⟨q, hq, hmem, hle, hall⟩ := ih p k preferences
      refine ⟨q, hq, ?_, hle, ?_⟩
      · rcases hmem with rfl | hmem
        · exact Or.inl rfl
        · exact Or.inr (List.mem_cons_of_mem x hmem)
      · intro r hr
        rcases List.mem_cons.1 hr with rfl | hr
        · exact pairLe_trans hle (pairLe_of_not_pairLt h)
        · exact hall r hr

theorem insertAll_one_pref_indep :
    ∀ (xs : List (Nat × C)) (o : Option (C × Nat)) (k k' : Nat)
      (preferences preferences' : List Nat),
      ((ImplReducer.mk (.One o) k preferences).insertAll xs).results
        = ((ImplReducer.mk (.One o) k' preferences').insertAll xs).results := by
  intro xs
  induction xs with
  | nil => intro o k k' preferences preferences'; rfl
  | cons x rest ih =>
    intro o k k' preferences preferences'
    rcases o with _ | p
    · rw [insertAll_cons, insertAll_cons, insert_one_none, insert_one_none]
      exact ih _ k k' preferences preferences'
    · rw [insertAll_cons, insertAll_cons, insert_one_some, insert_one_some]
      exact ih _ k k' preferences preferences'

end ReducerLemmas

theorem insertAll_topK {C : Type} [LinearOrder C] :
    ∀ (xs : List (Nat × C)) (r : ImplReducer C), (r.insertAll xs).topK = r.topK := by
  intro xs
  induction xs with
  | nil => intro r; rfl
  | cons x rest ih =>
    intro r
    exact (ih (r.insert x.1 x.2)).trans (insert_topK r x.1 x.2)

section TaskLemmas

theorem pairwise_fst_enumFrom {α : Type} :
    ∀ (l : List α) (n : Nat), (l.enumFrom n).Pairwise fun x y => x.1 < y.1 := by
  intro l
  induction l with
  | nil => intro n; simp
  | cons x xs ih =>
    intro n
    rw [List.enumFrom_cons]
    refine List.pairwise_cons.2 ⟨?_, ih (n + 1)⟩
    intro y hy
    have := (List.mem_enumFrom hy).1
    omega

theorem pairwise_fst_enum {α : Type} (l : List α) :
    l.enum.Pairwise fun x y => x.1 < y.1 :=
  pairwise_fst_enumFrom l 0

theorem snd_mem_of_mem_enum {α : Type} {l : List α} {x : Nat × α} (h : x ∈ l.enum) :
    x.2 ∈ l := by
  have h2 := List.mem_enum_iff_getElem?.1 h
  have h3 : l.get? x.1 = some x.2 := by rw [List.get?_eq_getElem?]; exact h2
  exact List.get?_mem h3

theorem finalize_new {C : Type} (topK : Nat) (preferences : List Nat) :
    (ImplReducer.new (C := C) topK preferences).finalize = [] := by
  by_cases h : topK = 1 <;> simp [ImplReducer.new, ImplReducer.finalize, h]

theorem resolveRequest_none_eq {SpecT K C : Type} [LinearOrder C]
    (fcc : K → List C → C) (reducer : ImplReducer C)
    (partials : List (WorkingPartialImpl SpecT K C)) (incomplete rb mc pIdx cIdx : Nat)
    (pimpl : ImplNode SpecT K) (subspecs : List SpecT)
    (subspecCosts : List (Option C)) (pa : Nat)
    (hp : partials.get? pIdx = some (.Constructing pimpl subspecs subspecCosts pa))
    (hinc : 0 < incomplete) :
    SpecTask.resolveRequest fcc (.Running reducer partials incomplete rb mc)
        (pIdx, cIdx) none
      = .ok (if incomplete - 1 = 0 then .Complete reducer.finalize false
          else .Running reducer (partials.set pIdx .Unsat) (incomplete - 1) rb mc) := by
  have hne : ¬ (incomplete = 0) := Nat.pos_iff_ne_zero.mp hinc
  simp only [SpecTask.resolveRequest, if_neg hne, hp]
  rw [apply_ite Except.ok]

theorem resolveRequest_some_filled_eq {SpecT K C : Type} [LinearOrder C]
    (fcc : K → List C → C) (reducer : ImplReducer C)
    (partials : List (WorkingPartialImpl SpecT K C)) (incomplete rb mc pIdx cIdx : Nat)
    (pimpl : ImplNode SpecT K) (subspecs : List SpecT)
    (subspecCosts : List (Option C)) (pa : Nat) (c : C)
    (hp : partials.get? pIdx = some (.Constructing pimpl subspecs subspecCosts pa))
    (hinc : 0 < incomplete)
    (hslot : subspecCosts.get? cIdx = some none)
    (hall : (subspecCosts.set cIdx (some c)).all Option.isSome = true)
    (v : C) (rest : List C)
    (hcomp : computeImplCost fcc pimpl
        ((subspecCosts.set cIdx (some c)).filterMap id) = some (v, rest)) :
    SpecTask.resolveRequest fcc (.Running reducer partials incomplete rb mc)
        (pIdx, cIdx) (some c)
      = .ok (if incomplete - 1 = 0
          then .Complete (reducer.insert pa v).finalize false
          else .Running (reducer.insert pa v) (partials.set pIdx .Sat)
            (incomplete - 1) rb mc) := by
  have hne : ¬ (incomplete = 0) := Nat.pos_iff_ne_zero.mp hinc
  simp only [SpecTask.resolveRequest, if_neg hne, hp, hslot, hall, hcomp]
  rw [if_pos trivial, apply_ite Except.ok]

theorem resolveRequest_some_partial_eq {SpecT K C : Type} [LinearOrder C]
    (fcc : K → List C → C) (reducer : ImplReducer C)
    (partials : List (WorkingPartialImpl SpecT K C)) (incomplete rb mc pIdx cIdx : Nat)
    (pimpl : ImplNode SpecT K) (subspecs : List SpecT)
    (subspecCosts : List (Option C)) (pa : Nat) (c : C)
    (hp : partials.get? pIdx = some (.Constructing pimpl subspecs subspecCosts pa))
    (hinc : 0 < incomplete)
    (hslot : subspecCosts.get? cIdx = some none)
    (hall : (subspecCosts.set cIdx (some c)).all Option.isSome = false) :
    SpecTask.resolveRequest fcc (.Running reducer partials incomplete rb mc)
        (pIdx, cIdx) (some c)
      = .ok (.Running reducer
          (partials.set pIdx
            (.Constructing pimpl subspecs (subspecCosts.set cIdx (some c)) pa))
          incomplete rb mc) := by
  have hne : ¬ (incomplete = 0) := Nat.pos_iff_ne_zero.mp hinc
  simp only [SpecTask.resolveRequest, if_neg hne, hp, hslot, hall]
  rw [if_neg Bool.false_ne_true]

theorem startFold_prunable {SpecT K C : Type} [LinearOrder C]
    (fromImpl : ImplNode SpecT K → C) :
    ∀ (l : List (Nat × Except ApplyError (ImplNode SpecT K)))
      (acc : ImplReducer C × Nat × List (WorkingPartialImpl SpecT K C) × Nat),
      (∀ x ∈ l, x.2 = .error .ActionNotApplicable ∨ x.2 = .error .OutOfMemory) →
      l.foldl (fun (acc : Except String
            (ImplReducer C × Nat × List (WorkingPartialImpl SpecT K C) × Nat)) entry =>
          acc.bind fun a => startStep fromImpl a entry) (.ok acc) = .ok acc := by
  intro l
  induction l with
  | nil => intro acc _; rfl
  | cons x rest ih =>
    intro acc h
    have hx : startStep fromImpl acc x = .ok acc := by
      rcases h x (List.mem_cons_self x rest) with h1 | h1 <;>
        simp [startStep, h1]
    have hstep : (Except.ok acc).bind (fun a => startStep fromImpl a x) = .ok acc := by
      simpa [Except.bind] using hx
    simp only [List.foldl_cons, hstep]
    exact ih acc (fun y hy => h y (List.mem_cons_of_mem x hy))

end TaskLemmas

section ClaimTheorems

/-- C4: for every `ImplReducer` built by `ImplReducer::new` and every finite
sequence of `insert(action_idx, cost)` calls, `finalize()` returns the held
`(ActionIdx, Cost)` pairs sorted in ascending order of cost and, among pairs
of equal cost, in ascending order of action index. -/
theorem implReducer_finalize_sorted {C : Type} [LinearOrder C] (topK : Nat)
    (preferences : List Nat) (xs : List (Nat × C)) :
    (((ImplReducer.new topK preferences).insertAll xs).finalize).Pairwise
      (fun x y => x.2 < y.2 ∨ (x.2 = y.2 ∧ x.1 < y.1)) := by
  have h := pairwise_heldPairs_insertAll xs (ImplReducer.new topK preferences)
    (by rw [heldPairs_new]; exact List.Pairwise.nil)
  rw [finalize_eq_map]
  exact h.map _ (fun a b hab => hab)

/-- C6 counterexample: with `top_k = 2`, no preferences, inserting action 0 at
cost 1 and then action 0 again at cost 2 leaves the reducer holding two
elements with the same action index — the claimed no-duplicate invariant does
not hold for every insert sequence. -/
theorem implReducer_dup_action_counterexample :
    ((((ImplReducer.new (C := Nat) 2 []).insert 0 1).insert 0 2).heldPairs
      = [(1, 0), (2, 0)]) ∧
    ¬ (((((ImplReducer.new (C := Nat) 2 []).insert 0 1).insert 0 2).heldPairs.map
        Prod.snd).Nodup) := by
  exact ⟨by decide, by decide⟩

/-- C6 (amended): after every sequence of inserts whose action indices are
pairwise distinct, the held set is sorted by `(cost, action_idx)`, contains no
two elements with the same action index, and has size at most `top_k` — for
every `top_k` and preference list. -/
theorem implReducer_invariants_insertAll {C : Type} [LinearOrder C] (topK : Nat)
    (preferences : List Nat) (xs : List (Nat × C))
    (hnd : (xs.map Prod.fst).Nodup) :
    (((ImplReducer.new topK preferences).insertAll xs).heldPairs).Pairwise pairLt ∧
    ((((ImplReducer.new topK preferences).insertAll xs).heldPairs).map Prod.snd).Nodup ∧
    (((ImplReducer.new topK preferences).insertAll xs).heldPairs).length ≤ topK := by
  have h := reducerInv_insertAll xs (ImplReducer.new topK preferences)
    (reducerInv_new topK preferences) hnd
    (by intro p _ hmem; rw [heldPairs_new] at hmem; simp at hmem)
  obtain ⟨h1, h2, h3, _⟩ := h
  refine ⟨h1, h2, ?_⟩
  rw [insertAll_topK] at h3
  exact h3

/-- Witness for the amended C6 at a concrete insert sequence. -/
theorem implReducer_invariants_insertAll_witness :
    (([((0 : Nat), (1 : Nat)), (1, 2), (2, 1)].map Prod.fst).Nodup) ∧
    ((((ImplReducer.new 2 []).insertAll
        [((0 : Nat), (1 : Nat)), (1, 2), (2, 1)]).heldPairs).Pairwise pairLt ∧
     ((((ImplReducer.new 2 []).insertAll
        [((0 : Nat), (1 : Nat)), (1, 2), (2, 1)]).heldPairs).map Prod.snd).Nodup ∧
     (((ImplReducer.new 2 []).insertAll
        [((0 : Nat), (1 : Nat)), (1, 2), (2, 1)]).heldPairs).length ≤ 2) :=
  ⟨by decide, implReducer_invariants_insertAll 2 [] _ (by decide)⟩

/-- C5: preference-biased tie replacement.  When the reducer holds `top_k`
elements and the candidate's cost equals some held element's cost, the
candidate replaces the held element at position `i` of the cost-ordered held
set exactly when `i < len(preferences)`, that element's cost equals the
candidate's cost, and `preferences[i]` equals the candidate's action index
(the first such position, walking the set in cost order); if no position
matches, the set is unchanged.  The bound `i < len(preferences)` is folded
into `preferences.get? i = some a`. -/
theorem implReducer_preference_replacement {C : Type} [LinearOrder C] (k : Nat)
    (preferences : List Nat) (l : List (C × Nat)) (a : Nat) (c : C)
    (hlen : l.length = k) (hc : ∃ p ∈ l, p.1 = c) :
    ((∀ i p, l.get? i = some p → p.1 = c → preferences.get? i ≠ some a) →
      (ImplReducer.mk (.Many l) k preferences).insert a c
        = ImplReducer.mk (.Many l) k preferences)
    ∧ (∀ i p, l.get? i = some p → p.1 = c → preferences.get? i = some a →
        (∀ j q, j < i → l.get? j = some q → q.1 = c → preferences.get? j ≠ some a) →
        (ImplReducer.mk (.Many l) k preferences).insert a c
          = ImplReducer.mk (.Many (insertSorted (c, a) (l.erase p))) k preferences) := by
  have hnotlt : ¬ (l.length < k) := by omega
  constructor
  · intro h
    have h0 : ∀ i p, l.get? i = some p → p.1 = c → preferences.get? (0 + i) ≠ some a := by
      intro i p hget hcp
      rw [Nat.zero_add]
      exact h i p hget hcp
    simp only [ImplReducer.insert]
    rw [if_neg hnotlt, if_pos hc, findPrefMatch_none h0]
  · intro i p hget hcp hpref hmin
    have hp : preferences.get? (0 + i) = some a := by rwa [Nat.zero_add]
    have hm : ∀ j q, j < i → l.get? j = some q → q.1 = c →
        preferences.get? (0 + j) ≠ some a := by
      intro j q hj hq hqc
      rw [Nat.zero_add]
      exact hmin j q hj hq hqc
    simp only [ImplReducer.insert]
    rw [if_neg hnotlt, if_pos hc, findPrefMatch_some hget hcp hp hm]

/-- Witness for C5: the spec's S3 scenario.  The final insert of action 3 at
cost 1 displaces the element at position 2 because `preferences[2] = 3`, and
the full S3 insert sequence finalizes to `[(0,1),(1,1),(3,1)]`. -/
theorem implReducer_preference_replacement_witness :
    ((ImplReducer.mk (.Many [((1 : Nat), (0 : Nat)), (1, 1), (1, 2)]) 3 [0, 2, 3]).insert 3 1
      = ImplReducer.mk (.Many [(1, 0), (1, 1), (1, 3)]) 3 [0, 2, 3]) ∧
    (((ImplReducer.new (C := Nat) 3 [0, 2, 3]).insertAll
        [(0, 1), (1, 1), (2, 1), (3, 1)]).finalize = [(0, 1), (1, 1), (3, 1)]) := by
  constructor
  · have h := (implReducer_preference_replacement 3 [0, 2, 3]
      [((1 : Nat), (0 : Nat)), (1, 1), (1, 2)] 3 1 rfl (by decide)).2 2 (1, 2) rfl rfl rfl
      (by intro j q hj hq hqc; interval_cases j <;> simp_all)
    exact h.trans (by decide)
  · decide

/-- C10: an `ImplReducer` with `top_k = 1` never consults its preference
list — its results are identical under any two preference lists — and it holds
exactly the pair minimal under the lexicographic `(cost, action_idx)` order
over all inserts, so an equal-cost candidate replaces the held pair only when
its action index is strictly smaller. -/
theorem implReducer_topk1_lexmin {C : Type} [LinearOrder C]
    (preferences preferences' : List Nat) (xs : List (Nat × C)) :
    (((ImplReducer.new 1 preferences).insertAll xs).results
        = ((ImplReducer.new 1 preferences').insertAll xs).results)
    ∧ (xs = [] → ((ImplReducer.new 1 preferences).insertAll xs).results = .One none)
    ∧ (xs ≠ [] → ∃ c a,
        ((ImplReducer.new 1 preferences).insertAll xs).results = .One (some (c, a))
        ∧ (a, c) ∈ xs ∧ ∀ q ∈ xs, pairLe (c, a) (q.2, q.1)) := by
  have hnew : ∀ (ps : List Nat), ImplReducer.new (C := C) 1 ps
      = ImplReducer.mk (.One none) 1 ps := by
    intro ps
    simp [ImplReducer.new]
  refine ⟨?_, ?_, ?_⟩
  · rw [hnew, hnew]
    exact insertAll_one_pref_indep xs none 1 1 preferences preferences'
  · rintro rfl
    rw [hnew]
    rfl
  · intro hne
    rcases xs with _ | ⟨x, rest⟩
    · exact absurd rfl hne
    · rw [hnew, insertAll_cons, insert_one_none]
      obtain ⟨q, hq, hmem, hle, hall⟩ := insertAll_one_char rest (x.2, x.1) 1 preferences
      refine ⟨q.1, q.2, by simpa using hq, ?_, ?_⟩
      · rcases hmem with rfl | hmem
        · exact List.mem_cons_self x rest
        · exact List.mem_cons_of_mem x hmem
      · intro r hr
        rcases List.mem_cons.1 hr with rfl | hr
        · simpa using hle
        · simpa using hall r hr

/-- Witness for C10 at a concrete insert sequence and preference lists. -/
theorem implReducer_topk1_lexmin_witness :
    (([((2 : Nat), (5 : Nat)), (1, 5), (3, 4)] : List (Nat × Nat)) ≠ []) ∧
    (∃ c a, ((ImplReducer.new 1 [2]).insertAll
        [((2 : Nat), (5 : Nat)), (1, 5), (3, 4)]).results = .One (some (c, a))
      ∧ (a, c) ∈ [((2 : Nat), (5 : Nat)), (1, 5), (3, 4)]
      ∧ ∀ q ∈ [((2 : Nat), (5 : Nat)), (1, 5), (3, 4)], pairLe (c, a) (q.2, q.1)) :=
  ⟨by decide, (implReducer_topk1_lexmin [2] [] _).2.2 (by decide)⟩

/-- C2: `next_request_batch` returns `None` exactly when the task is not
Running or when `request_batches_returned` equals `max_children`; otherwise,
with `b` the current counter value, it increments the counter (even if the
batch is empty) and the batch holds, for every Constructing partial at index
`i` owning at least `b+1` sub-Specs, exactly the pair of the `b`-th sub-Spec
and `RequestId (i, b)`, in ascending order of `i`. -/
theorem specTask_next_request_batch {SpecT K C : Type}
    (reducer : ImplReducer C) (partials : List (WorkingPartialImpl SpecT K C))
    (incomplete rb mc : Nat) :
    (∀ (acv : List (Nat × C)) (fromDb : Bool),
      @SpecTask.nextRequestBatch SpecT K C (SpecTask.Complete acv fromDb)
        = (none, SpecTask.Complete acv fromDb))
    ∧ (rb = mc → SpecTask.nextRequestBatch (.Running reducer partials incomplete rb mc)
        = (none, .Running reducer partials incomplete rb mc))
    ∧ (rb ≠ mc →
        (SpecTask.nextRequestBatch (.Running reducer partials incomplete rb mc)).2
          = .Running reducer partials incomplete (rb + 1) mc
        ∧ ∃ batch,
            (SpecTask.nextRequestBatch (.Running reducer partials incomplete rb mc)).1
              = some batch
          ∧ (∀ s i j, (s, (i, j)) ∈ batch ↔ (j = rb ∧
              ∃ pimpl subspecs subspecCosts pa,
                partials.get? i = some (.Constructing pimpl subspecs subspecCosts pa)
                ∧ subspecs.get? rb = some s))
          ∧ batch.Pairwise (fun x y => x.2.1 < y.2.1)) := by
  refine ⟨fun acv fromDb => rfl, ?_, ?_⟩
  · intro h
    simp [SpecTask.nextRequestBatch, h]
  · intro h
    have hbatch : (SpecTask.nextRequestBatch
        (SpecTask.Running reducer partials incomplete rb mc)).1
        = some (partials.enum.filterMap fun ip =>
            match ip.2 with
            | .Constructing _ ss _ _ => (ss.get? rb).map fun s => (s, (ip.1, rb))
            | _ => none) := by
      simp [SpecTask.nextRequestBatch, h]
    refine ⟨by simp [SpecTask.nextRequestBatch, h], _, hbatch, ?_, ?_⟩
    · intro s i j
      constructor
      · intro hmem
        rcases List.mem_filterMap.1 hmem with ⟨⟨iIdx, p⟩, hx, hfx⟩
        cases p with
        | Constructing pimpl subspecs subspecCosts pa =>
          simp only [Option.map_eq_some'] at hfx
          rcases hfx with ⟨s', hs', heq⟩
          rcases heq with ⟨rfl, rfl, rfl⟩
          refine ⟨rfl, pimpl, subspecs, subspecCosts, pa, ?_, hs'⟩
          rw [List.get?_eq_getElem?]
          exact List.mem_enum_iff_getElem?.1 hx
        | Unsat => simp at hfx
        | Sat => simp at hfx
      · rintro ⟨rfl, pimpl, subspecs, subspecCosts, pa, hp, hs⟩
        refine List.mem_filterMap.2
          ⟨(i, .Constructing pimpl subspecs subspecCosts pa), ?_, ?_⟩
        · refine List.mem_enum_iff_getElem?.2 ?_
          rw [← List.get?_eq_getElem?]
          exact hp
        · simp only [Option.map_eq_some']
          exact ⟨s, hs, rfl⟩
    · rw [List.pairwise_filterMap]
      have hout : ∀ (x : Nat × WorkingPartialImpl SpecT K C) (z : SpecT × (Nat × Nat)),
          (match x.2 with
            | WorkingPartialImpl.Constructing _ ss _ _ =>
              (ss.get? rb).map fun s => (s, (x.1, rb))
            | _ => none) = some z → z.2.1 = x.1 := by
        rintro ⟨iIdx, p⟩ z hfx
        cases p with
        | Constructing pimpl subspecs subspecCosts pa =>
          simp only [Option.map_eq_some'] at hfx
          rcases hfx with ⟨s', _, rfl⟩
          rfl
        | Unsat => simp at hfx
        | Sat => simp at hfx
      refine (pairwise_fst_enum partials).imp ?_
      intro a b hab z hz z' hz'
      rw [hout a z hz, hout b z' hz']
      exact hab

/-- Witness for C2: on a concrete Running task, batch 0 is emitted with the
counter bumped, and a task whose counter equals `max_children` yields `None`
with the state unchanged. -/
theorem specTask_next_request_batch_witness :
    (@SpecTask.nextRequestBatch Nat Unit Nat
      (.Running (ImplReducer.new (C := Nat) 1 [])
        [.Constructing (.specApp 10) [10] [none] 0, .Unsat] 1 2 2)
      = (none, .Running (ImplReducer.new 1 [])
          [.Constructing (.specApp 10) [10] [none] 0, .Unsat] 1 2 2)) ∧
    ((@SpecTask.nextRequestBatch Nat Unit Nat
      (.Running (ImplReducer.new (C := Nat) 1 [])
        [.Constructing (.specApp 10) [10] [none] 0, .Unsat] 1 0 2)).2
      = .Running (ImplReducer.new 1 [])
          [.Constructing (.specApp 10) [10] [none] 0, .Unsat] 1 1 2) :=
  ⟨(specTask_next_request_batch (ImplReducer.new 1 [])
      [.Constructing (.specApp 10) [10] [none] 0, .Unsat] 1 2 2).2.1 rfl,
   ((specTask_next_request_batch (ImplReducer.new 1 [])
      [.Constructing (.specApp 10) [10] [none] 0, .Unsat] 1 0 2).2.2
      (by decide)).1⟩

/-- C1: `resolve_request` on a Running task addressing a Constructing partial.
With cost `None` the partial becomes Unsat and the incomplete count drops by
one; with `Some(cost)` the slot is filled and, if every slot of the partial is
then `Some`, the partial cost computed by the pure `compute_impl_cost` fold
over the slot costs in slot order is offered to the reducer under
`producing_action_idx`, the partial becomes Sat, and the count drops by one;
whenever the count reaches zero the task becomes
`Complete(reducer.finalize(), from_db := false)`. -/
theorem specTask_resolve_request {SpecT K C : Type} [LinearOrder C]
    (fcc : K → List C → C) (reducer : ImplReducer C)
    (partials : List (WorkingPartialImpl SpecT K C)) (incomplete rb mc pIdx cIdx : Nat)
    (pimpl : ImplNode SpecT K) (subspecs : List SpecT)
    (subspecCosts : List (Option C)) (pa : Nat)
    (hp : partials.get? pIdx = some (.Constructing pimpl subspecs subspecCosts pa))
    (hinc : 0 < incomplete) :
    (SpecTask.resolveRequest fcc (.Running reducer partials incomplete rb mc)
        (pIdx, cIdx) none
      = .ok (if incomplete - 1 = 0 then .Complete reducer.finalize false
          else .Running reducer (partials.set pIdx .Unsat) (incomplete - 1) rb mc))
    ∧ (∀ c : C, subspecCosts.get? cIdx = some none →
        ((subspecCosts.set cIdx (some c)).all Option.isSome = true →
          ∀ (v : C) (rest : List C),
            computeImplCost fcc pimpl
              ((subspecCosts.set cIdx (some c)).filterMap id) = some (v, rest) →
            SpecTask.resolveRequest fcc (.Running reducer partials incomplete rb mc)
                (pIdx, cIdx) (some c)
              = .ok (if incomplete - 1 = 0
                  then .Complete (reducer.insert pa v).finalize false
                  else .Running (reducer.insert pa v) (partials.set pIdx .Sat)
                    (incomplete - 1) rb mc))
        ∧ ((subspecCosts.set cIdx (some c)).all Option.isSome = false →
          SpecTask.resolveRequest fcc (.Running reducer partials incomplete rb mc)
              (pIdx, cIdx) (some c)
            = .ok (.Running reducer
                (partials.set pIdx (.Constructing pimpl subspecs
                  (subspecCosts.set cIdx (some c)) pa))
                incomplete rb mc))) := by
  refine ⟨resolveRequest_none_eq fcc reducer partials incomplete rb mc pIdx cIdx
    pimpl subspecs subspecCosts pa hp hinc, ?_⟩
  intro c hslot
  constructor
  · intro hall v rest hcomp
    exact resolveRequest_some_filled_eq fcc reducer partials incomplete rb mc pIdx cIdx
      pimpl subspecs subspecCosts pa c hp hinc hslot hall v rest hcomp
  · intro hall
    exact resolveRequest_some_partial_eq fcc reducer partials incomplete rb mc pIdx cIdx
      pimpl subspecs subspecCosts pa c hp hinc hslot hall

/-- Witness for C1: filling the last slot of the only Constructing partial
computes the Impl cost (5 + 7 under an additive fold), offers it to the
reducer under action index 2, and completes the task. -/
theorem specTask_resolve_request_witness :
    @SpecTask.resolveRequest Nat Unit Nat _
        (fun _ l => l.foldl Nat.add 0)
        (.Running (ImplReducer.new (C := Nat) 1 [])
          [.Constructing (.node () [.specApp 20, .specApp 21]) [20, 21]
            [some 5, none] 2] 1 2 2)
        (0, 1) (some 7)
      = .ok (.Complete [(2, 12)] false) := by
  have h := ((specTask_resolve_request (fun (_ : Unit) (l : List Nat) => l.foldl Nat.add 0)
      (ImplReducer.new 1 [])
      [.Constructing (.node () [.specApp 20, .specApp 21]) [20, 21] [some 5, none] 2]
      1 2 2 0 1 (.node () [.specApp 20, .specApp 21]) [20, 21] [some 5, none] 2
      rfl (by decide)).2 7 rfl).1 rfl 12 []
      (by simp [computeImplCost, computeImplCostAux])
  exact h.trans (by rfl)

/-- C3: unsatisfiability propagates.  A task whose every action application
fails with a prunable error starts Complete with the empty `ActionCostVec`;
an empty `ActionCostVec` hands cost `None` to waiters; and `resolve_request`
with `None` on a Constructing partial marks it Unsat — never Sat — and, when
it was the last incomplete partial, completes the task. -/
theorem specTask_unsat_propagation {SpecT K C : Type} [LinearOrder C]
    (fcc : K → List C → C) (fromImpl : ImplNode SpecT K → C) :
    (∀ (applyResults : List (Except ApplyError (ImplNode SpecT K)))
        (topK : Nat) (preferences : List Nat) (threadIdx threadCount : Nat),
      (∀ r ∈ applyResults, r = .error .ActionNotApplicable ∨ r = .error .OutOfMemory) →
      SpecTask.start applyResults fromImpl topK preferences threadIdx threadCount
        = .ok (.Complete [] false))
    ∧ (firstCost ([] : List (Nat × C)) = none)
    ∧ (∀ (reducer : ImplReducer C) (partials : List (WorkingPartialImpl SpecT K C))
        (incomplete rb mc pIdx cIdx : Nat) (pimpl : ImplNode SpecT K)
        (subspecs : List SpecT) (subspecCosts : List (Option C)) (pa : Nat),
        partials.get? pIdx = some (.Constructing pimpl subspecs subspecCosts pa) →
        0 < incomplete →
        SpecTask.resolveRequest fcc (.Running reducer partials incomplete rb mc)
            (pIdx, cIdx) none
          = .ok (if incomplete - 1 = 0 then .Complete reducer.finalize false
              else .Running reducer (partials.set pIdx .Unsat) (incomplete - 1) rb mc))
    ∧ (∀ (topK : Nat) (preferences : List Nat)
        (partials : List (WorkingPartialImpl SpecT K C)) (rb mc pIdx cIdx : Nat)
        (pimpl : ImplNode SpecT K) (subspecs : List SpecT)
        (subspecCosts : List (Option C)) (pa : Nat),
        partials.get? pIdx = some (.Constructing pimpl subspecs subspecCosts pa) →
        SpecTask.resolveRequest fcc
            (.Running (ImplReducer.new topK preferences) partials 1 rb mc)
            (pIdx, cIdx) none
          = .ok (.Complete [] false)) := by
  refine ⟨?_, rfl, ?_, ?_⟩
  · intro applyResults topK preferences threadIdx threadCount h
    have hmem : ∀ x ∈ (applyResults.enum.drop
          (threadIdx * applyResults.length / threadCount)
        ++ applyResults.enum.take (threadIdx * applyResults.length / threadCount)),
        x.2 = .error .ActionNotApplicable ∨ x.2 = .error .OutOfMemory := by
      intro x hx
      have hx2 : x ∈ applyResults.enum := by
        rcases List.mem_append.1 hx with h1 | h1
        · exact (List.drop_subset _ _) h1
        · exact (List.take_subset _ _) h1
      exact h x.2 (snd_mem_of_mem_enum hx2)
    simp only [SpecTask.start]
    rw [startFold_prunable fromImpl _ _ hmem]
    simp [finalize_new]
  · intro reducer partials incomplete rb mc pIdx cIdx pimpl subspecs subspecCosts pa hp hinc
    exact resolveRequest_none_eq fcc reducer partials incomplete rb mc pIdx cIdx
      pimpl subspecs subspecCosts pa hp hinc
  · intro topK preferences partials rb mc pIdx cIdx pimpl subspecs subspecCosts pa hp
    have h := resolveRequest_none_eq fcc (ImplReducer.new topK preferences) partials 1
      rb mc pIdx cIdx pimpl subspecs subspecCosts pa hp (by decide)
    rw [h]
    simp [finalize_new]

/-- Witness for C3: a task with two always-failing actions completes
immediately with an empty result, and resolving with `None` marks the
addressed Constructing partial Unsat. -/
theorem specTask_unsat_propagation_witness :
    (@SpecTask.start Nat Unit Nat _
        [.error .ActionNotApplicable, .error .OutOfMemory] (fun _ => 0) 1 [] 0 1
      = .ok (.Complete [] false)) ∧
    (@SpecTask.resolveRequest Nat Unit Nat _
        (fun (_ : Unit) (_ : List Nat) => 0)
        (.Running (ImplReducer.new 1 [])
          [.Constructing (.specApp 7) [7] [none] 0,
           .Constructing (.specApp 8) [8] [none] 1] 2 1 1)
        (0, 0) none
      = .ok (.Running (ImplReducer.new 1 [])
          [.Unsat, .Constructing (.specApp 8) [8] [none] 1] 1 1 1)) := by
  constructor
  · exact (specTask_unsat_propagation (fun (_ : Unit) (l : List Nat) => 0) (fun _ => 0)).1
      [.error .ActionNotApplicable, .error .OutOfMemory] 1 [] 0 1 (by simp)
  · have h := (specTask_unsat_propagation (fun (_ : Unit) (_ : List Nat) => 0)
      (fun _ => 0)).2.2.1 (ImplReducer.new 1 [])
      [.Constructing (.specApp 7) [7] [none] 0, .Constructing (.specApp 8) [8] [none] 1]
      2 1 1 0 0 (.specApp 7) [7] [none] 0 rfl (by decide)
    exact h.trans (by rfl)

/-- C8 counterexample: resolving the same request slot `(0, 0)` twice does not
panic.  The first `None` resolution marks partial 0 Unsat; the second
resolution of the very same slot hits the `WorkingPartialImpl::Unsat` arm and
returns with the state unchanged — silently ignored rather than panicking. -/
theorem specTask_double_resolve_counterexample :
    (@SpecTask.resolveRequest Nat Unit Nat _
        (fun (_ : Unit) (_ : List Nat) => 0)
        (.Running (ImplReducer.new 1 [])
          [.Constructing (.specApp 7) [7] [none] 0,
           .Constructing (.specApp 8) [8] [none] 1] 2 1 1)
        (0, 0) none
      = .ok (.Running (ImplReducer.new 1 [])
          [.Unsat, .Constructing (.specApp 8) [8] [none] 1] 1 1 1))
    ∧ (SpecTask.resolveRequest (fun (_ : Unit) (_ : List Nat) => 0)
        (.Running (ImplReducer.new 1 [])
          [.Unsat, .Constructing (.specApp 8) [8] [none] 1] 1 1 1)
        (0, 0) none
      = .ok (.Running (ImplReducer.new 1 [])
          [.Unsat, .Constructing (.specApp 8) [8] [none] 1] 1 1 1)) :=
  ⟨rfl, rfl⟩

/-- C8 (amended): resolving on a non-Running task panics; resolving with
`Some(cost)` a slot that is already `Some` panics (a debug assertion);
resolving a request addressed to a partial already Sat panics; but a request
addressed to a partial already Unsat is silently ignored, returning the state
unchanged. -/
theorem specTask_resolve_request_contract {SpecT K C : Type} [LinearOrder C]
    (fcc : K → List C → C) (reducer : ImplReducer C)
    (partials : List (WorkingPartialImpl SpecT K C)) (incomplete rb mc pIdx cIdx : Nat)
    (hinc : 0 < incomplete) :
    (∀ (acv : List (Nat × C)) (fromDb : Bool) (rid : Nat × Nat) (cost : Option C),
      @SpecTask.resolveRequest SpecT K C _ fcc (.Complete acv fromDb) rid cost
        = .error "Task is not running")
    ∧ (∀ (pimpl : ImplNode SpecT K) (subspecs : List SpecT)
        (subspecCosts : List (Option C)) (pa : Nat) (c c0 : C),
        partials.get? pIdx = some (.Constructing pimpl subspecs subspecCosts pa) →
        subspecCosts.get? cIdx = some (some c0) →
        SpecTask.resolveRequest fcc (.Running reducer partials incomplete rb mc)
            (pIdx, cIdx) (some c)
          = .error "Requested Spec was already resolved")
    ∧ (partials.get? pIdx = some .Sat → ∀ cost : Option C,
        SpecTask.resolveRequest fcc (.Running reducer partials incomplete rb mc)
            (pIdx, cIdx) cost
          = .error "Resolved a request for an already-completed Spec")
    ∧ (partials.get? pIdx = some .Unsat → ∀ cost : Option C,
        SpecTask.resolveRequest fcc (.Running reducer partials incomplete rb mc)
            (pIdx, cIdx) cost
          = .ok (.Running reducer partials incomplete rb mc)) := by
  have hne : ¬ (incomplete = 0) := Nat.pos_iff_ne_zero.mp hinc
  refine ⟨fun acv fromDb rid cost => rfl, ?_, ?_, ?_⟩
  · intro pimpl subspecs subspecCosts pa c c0 hp hslot
    simp only [SpecTask.resolveRequest, if_neg hne, hp, hslot]
  · intro hp cost
    simp only [SpecTask.resolveRequest, if_neg hne, hp]
  · intro hp cost
    simp only [SpecTask.resolveRequest, if_neg hne, hp]

/-- Witness for the amended C8 at concrete states. -/
theorem specTask_resolve_request_contract_witness :
    (@SpecTask.resolveRequest Nat Unit Nat _
        (fun (_ : Unit) (_ : List Nat) => 0) (.Complete [(0, 3)] true) (0, 0) none
      = .error "Task is not running")
    ∧ (@SpecTask.resolveRequest Nat Unit Nat _
        (fun (_ : Unit) (_ : List Nat) => 0)
        (.Running (ImplReducer.new 1 [])
          [.Constructing (.specApp 7) [7] [some 4] 0, .Unsat] 1 1 1)
        (0, 0) (some 9)
      = .error "Requested Spec was already resolved")
    ∧ (@SpecTask.resolveRequest Nat Unit Nat _
        (fun (_ : Unit) (_ : List Nat) => 0)
        (.Running (ImplReducer.new 1 []) [.Sat, .Unsat] 1 1 1) (0, 0) none
      = .error "Resolved a request for an already-completed Spec")
    ∧ (@SpecTask.resolveRequest Nat Unit Nat _
        (fun (_ : Unit) (_ : List Nat) => 0)
        (.Running (ImplReducer.new 1 []) [.Unsat, .Sat] 1 1 1) (0, 0) (some 5)
      = .ok (.Running (ImplReducer.new 1 []) [.Unsat, .Sat] 1 1 1)) := by
  have h := @specTask_resolve_request_contract Nat Unit Nat _
    (fun (_ : Unit) (_ : List Nat) => 0) (ImplReducer.new 1 [])
    [.Constructing (.specApp 7) [7] [some 4] 0, .Unsat] 1 1 1 0 0 (by decide)
  have h2 := @specTask_resolve_request_contract Nat Unit Nat _
    (fun (_ : Unit) (_ : List Nat) => 0) (ImplReducer.new 1 [])
    [.Sat, .Unsat] 1 1 1 0 0 (by decide)
  have h3 := @specTask_resolve_request_contract Nat Unit Nat _
    (fun (_ : Unit) (_ : List Nat) => 0) (ImplReducer.new 1 [])
    [.Unsat, .Sat] 1 1 1 0 0 (by decide)
  exact ⟨h.1 [(0, 3)] true (0, 0) none,
    h.2.1 (.specApp 7) [7] [some 4] 0 9 4 rfl rfl,
    h2.2.2.1 rfl none,
    h3.2.2.2 rfl (some 5)⟩

/-- C9: the guards at the entry of `top_down_many`: any `top_k > 1` panics
with "not yet implemented", and a `top_k` exceeding the database's `max_k`
fails the entry assertion. -/
theorem topDownMany_guard (maxK : Option Nat) (topK : Nat) :
    (1 < topK → ∃ e, topDownManyChecks maxK topK = .error e)
    ∧ (∀ m, maxK = some m → m < topK → ∃ e, topDownManyChecks maxK topK = .error e) := by
  constructor
  · intro h
    by_cases hm : Option.all (fun k => decide (topK ≤ k)) maxK = true
    · refine ⟨"Search for top_k > 1 not yet implemented.", ?_⟩
      simp [topDownManyChecks, hm, h]
    · refine ⟨"assertion failed: top_k exceeds database max_k", ?_⟩
      simp only [topDownManyChecks]
      rw [if_neg]
      simpa using hm
  · rintro m rfl h
    refine ⟨"assertion failed: top_k exceeds database max_k", ?_⟩
    simp only [topDownManyChecks]
    rw [if_neg]
    simp
    omega

/-- Witness for C9 at concrete arguments. -/
theorem topDownMany_guard_witness :
    ((1 < 2) ∧ ∃ e, topDownManyChecks none 2 = .error e)
    ∧ ((1 < 3) ∧ ∃ e, topDownManyChecks (some 1) 3 = .error e) :=
  ⟨⟨by decide, (topDownMany_guard none 2).1 (by decide)⟩,
   ⟨by decide, (topDownMany_guard (some 1) 3).2 1 rfl (by decide)⟩⟩

end ClaimTheorems

end Morello

namespace Morello

section RustUnitTests

/-- Replication of `test_implreducer_sort_by_cost` from `search.rs`. -/
theorem rustTest_implreducer_sort_by_cost :
    (ImplReducer.insertAll (ImplReducer.new 3 [])
      [(0, 1), (1, 3), (2, 2)]).finalize = [(0, 1), (2, 2), (1, 3)] := by decide

/-- Replication of `test_implreducer_preference_replacement` from
`search.rs` (the spec's S3 scenario). -/
theorem rustTest_implreducer_preference_replacement :
    (ImplReducer.insertAll (ImplReducer.new 3 [0, 2, 3])
      [(0, 1), (1, 1), (2, 1), (3, 1)]).finalize = [(0, 1), (1, 1), (3, 1)] := by decide

/-- Replication of `test_implreducer_exactly_one_action` from `search.rs`. -/
theorem rustTest_implreducer_exactly_one_action :
    (ImplReducer.insertAll (ImplReducer.new 1 [])
      [(1, 1), (0, 1), (2, 1)]).finalize = [(0, 1)] := by decide

/-- Replication of
`test_implreducer_preference_replacement_and_sort_by_cost_then_action_idx`
from `search.rs` (preferences `[3, u16::MAX, 0]`). -/
theorem rustTest_implreducer_preference_cost_action :
    (ImplReducer.insertAll (ImplReducer.new 3 [3, 65535, 0])
      [(0, 1), (1, 2), (2, 1), (3, 1)]).finalize = [(2, 1), (3, 1), (1, 2)] := by decide

/-- Replication of `test_implreducer_cost_replacement` from `search.rs`. -/
theorem rustTest_implreducer_cost_replacement :
    (ImplReducer.insertAll (ImplReducer.new 3 [])
      [(0, 1), (1, 3), (2, 3), (3, 2)]).finalize = [(0, 1), (3, 2), (1, 3)] := by decide

/-- Replication of `test_implreducer_no_cost_replacement` from `search.rs`. -/
theorem rustTest_implreducer_no_cost_replacement :
    (ImplReducer.insertAll (ImplReducer.new 3 [])
      [(0, 1), (1, 1), (2, 1), (3, 2)]).finalize = [(0, 1), (1, 1), (2, 1)] := by decide

end RustUnitTests

end Morello
